import Mathlib

/-!
Verification of the NER learner core (`model/ner_learner.py`).

This file gives a shallow embedding of the data model and operations of the
NER learner: mask construction (`create_mask`), target truncation
(`mask_targets`), the evaluation metric accumulation of `NERLearner.test`,
checkpoint-name reconciliation (`load_ner_model`), the freeze/unfreeze layer
policy (`freeze_to` / `unfreeze`), the fine-tune entry point, device
placement effects, the training/eval mode flag, and the embedding-weight
freeze in `NERLearner.train`.  Tensors are embedded as lists (a 2-D tensor
is a list of rows together with its dimensions), Python dicts as
association lists in insertion order, and fallible operations return
`Except`.
-/

set_option autoImplicit false
set_option linter.unusedVariables false

namespace NER

/-! ## Layer groups: `freeze_to` and `unfreeze` (ner_learner.py lines 34-45)

A layer group is represented by its trainable flag.  `set_trainable l False`
on every group, then `set_trainable l True` on the tail `c[n:]`, is embedded
as a map to `false` followed by a positional pass setting indices `≥ n`. -/

def setTrainableFrom (b : Bool) (n : Nat) : List Bool → Nat → List Bool
  | [], _ => []
  | g :: gs, idx => (if n ≤ idx then b else g) :: setTrainableFrom b n gs (idx + 1)

def freeze_to (groups : List Bool) (n : Nat) : List Bool :=
  setTrainableFrom true n (groups.map (fun _ => false)) 0

def unfreeze (groups : List Bool) : List Bool :=
  freeze_to groups 0

/-! ## Training / evaluation mode flag and the embedding freeze

The model's `training` flag is the `nn.Module` mode flag; `model.train()`
sets it, `model.eval()` clears it (ner_learner.py lines 169, 220, 286). -/

structure ModuleState where
  training : Bool

def module_eval (m : ModuleState) : ModuleState := ModuleState.mk false

def module_train (m : ModuleState) : ModuleState := ModuleState.mk true

/-- Parameter of the model: its tensor value and its `requires_grad` flag. -/
structure Param where
  value : List Int
  requires_grad : Bool

/-- Modelled from the spec: the optimizer step of the training loop updates
only parameters whose gradients are enabled (spec 4.4: freeze policy marks
groups non-trainable; "embedding gradients disabled" excludes a parameter
from updates).  The torch optimizer itself is an external collaborator. -/
def optimizer_step (u : List Int → List Int) (p : Param) : Param :=
  if p.requires_grad then Param.mk (u p.value) p.requires_grad else p

/-- Embedding of `NERLearner.train` (lines 167-216) restricted to its effect
on the mode flag and on the embedding weight: line 169 `self.model.train()`,
line 170 `self.model.emb.weight.requires_grad = False` (unconditional, the
`fine_tune` argument is not consulted), then one optimizer step per batch. -/
def NERLearner_train (m : ModuleState) (fine_tune : Bool)
    (updates : List (List Int → List Int)) (emb : Param) : ModuleState × Param :=
  let m2 := module_train m
  let emb2 := Param.mk emb.value false
  (m2, updates.foldl (fun e u => optimizer_step u e) emb2)

/-! ## Evaluation metrics of `NERLearner.test` (lines 219-275)

Chunk extraction (`get_chunks`, external to this file's scope) produces one
set of gold chunks and one set of predicted chunks per sample; `test`
accumulates `correct_preds += len(lab_chunks & lab_pred_chunks)`,
`total_preds += len(lab_pred_chunks)`, `total_correct += len(lab_chunks)`
over all samples, then computes precision, recall and F1 guarded by
`if correct_preds > 0`. -/

/-- Chunk as produced by chunk extraction: (tag type, start index, end index). -/
abbrev Chunk := String × Nat × Nat

/-- Accumulation of (gold chunks, predicted chunks) per sample, as in the
loop body of `NERLearner.test` lines 262-268.  Result:
(correct_preds, total_preds, total_correct). -/
def accumulateCounts (samples : List (Finset Chunk × Finset Chunk)) : Nat × Nat × Nat :=
  samples.foldl
    (fun acc s => (acc.1 + (s.1 ∩ s.2).card, acc.2.1 + s.2.card, acc.2.2 + s.1.card))
    (0, 0, 0)

/-- Final metric computation of `NERLearner.test` lines 270-272. -/
def evalMetrics (correct_preds total_preds total_correct : Nat) : ℚ × ℚ × ℚ :=
  let p : ℚ := if correct_preds > 0 then (correct_preds : ℚ) / total_preds else 0
  let r : ℚ := if correct_preds > 0 then (correct_preds : ℚ) / total_correct else 0
  let f1 : ℚ := if correct_preds > 0 then 2 * p * r / (p + r) else 0
  (p, r, f1)

/-- Embedding of `NERLearner.test` restricted to its mode-flag effect and its
metric computation: line 220 `self.model.eval()` (never restored in the
function body), then the accumulation and final metrics. -/
def NERLearner_test (m : ModuleState) (samples : List (Finset Chunk × Finset Chunk)) :
    (ℚ × ℚ × ℚ) × ModuleState :=
  let m2 := module_eval m
  let cnt := accumulateCounts samples
  (evalMetrics cnt.1 cnt.2.1 cnt.2.2, m2)

/-- Embedding of `NERLearner.predict_batch` (lines 285-309) restricted to its
mode-flag effect and its result selection: line 286 `self.model.eval()`
(never restored), line 309 `return predictions[0]` with the decode output
abstracted as input. -/
def predict_batch (m : ModuleState) (predictions : List (List Int)) :
    List Int × ModuleState :=
  (predictions.getD 0 [], module_eval m)

/-! ## Target truncation: `mask_targets` (lines 345-352) and token accuracy

The targets tensor inside `test`/`train` is time-major of shape
(max_len, batch); `mask_targets` transposes it back to batch-major when
`batch_first` is false and truncates each row to the sample's true length.
A 2-D tensor is embedded as its list of rows plus its column count. -/

def columnOf (m : List (List Int)) (j : Nat) : List Int :=
  m.map (fun row => row.getD j 0)

/-- Tensor transpose `targets.transpose(0,1)` of a (rows, cols) tensor. -/
def transposeT (m : List (List Int)) (cols : Nat) : List (List Int) :=
  (List.range cols).map (fun j => columnOf m j)

def mask_targets (targets : List (List Int)) (cols : Nat)
    (sequence_lengths : List Nat) (batch_first : Bool) : List (List Int) :=
  let t := if batch_first then targets else transposeT targets cols
  (t.zip sequence_lengths).map (fun p => p.1.take p.2)

/-- Per-sample token comparison of `NERLearner.test` line 260:
`accs += [a==b for (a, b) in zip(lab, lab_pred)]`. -/
def sampleAccs (lab lab_pred : List Int) : List Bool :=
  (lab.zip lab_pred).map (fun ab => ab.1 == ab.2)

/-! ## Mask construction: `create_mask` (lines 330-342)

`create_mask` builds a ones tensor of the target's shape, then for each
sample index `i` with length `l` zeroes the slice `mask[l:, i]` (time-major)
or `mask[i, l:]` (batch-first), each assignment guarded by a bounds check
against the corresponding dimension.  The mask tensor is embedded as a list
of `rows` rows of `cols` booleans. -/

/-- Entry of a 2-D boolean tensor at (row r, column c). -/
def entry (m : List (List Bool)) (r c : Nat) : Bool :=
  (m.getD r []).getD c false

/-- Slice assignment `mask[l:, i] = 0`: in every row with index `≥ l`,
position `i` is set to false.  The counter `t` is the index of the head row. -/
def assignTM (l i : Nat) : List (List Bool) → Nat → List (List Bool)
  | [], _ => []
  | row :: rows, t => (if l ≤ t then row.set i false else row) :: assignTM l i rows (t + 1)

/-- Row slice `row[l:] = 0`: positions with index `≥ l` set to false. -/
def zeroFrom (l : Nat) : List Bool → Nat → List Bool
  | [], _ => []
  | b :: bs, c => (if l ≤ c then false else b) :: zeroFrom l bs (c + 1)

/-- Slice assignment `mask[i, l:] = 0`: in row `i`, positions `≥ l` set to
false.  The counter `r` is the index of the head row. -/
def assignBM (i l : Nat) : List (List Bool) → Nat → List (List Bool)
  | [], _ => []
  | row :: rows, r => (if r = i then zeroFrom l row 0 else row) :: assignBM i l rows (r + 1)

/-- Loop body of `create_mask`: `for i, l in enumerate(sequence_lengths)`,
with `i` starting at `i0`. -/
def createMaskLoop (rows cols : Nat) (batch_first : Bool) :
    List Nat → Nat → List (List Bool) → List (List Bool)
  | [], _, mask => mask
  | l :: rest, i, mask =>
    let mask2 :=
      if batch_first then
        (if l < cols then assignBM i l mask 0 else mask)
      else
        (if l < rows then assignTM l i mask 0 else mask)
    createMaskLoop rows cols batch_first rest (i + 1) mask2

/-- Embedding of `create_mask` for a target tensor of shape (rows, cols);
the `.cuda()` device transfer on the fresh ones tensor is modelled
separately by `create_mask_run` below. -/
def create_mask (sequence_lengths : List Nat) (rows cols : Nat)
    (batch_first : Bool) : List (List Bool) :=
  createMaskLoop rows cols batch_first sequence_lengths 0
    (List.replicate rows (List.replicate cols true))

/-- Rectangular shape predicate for the embedded 2-D tensors. -/
def Rect (m : List (List Bool)) (rows cols : Nat) : Prop :=
  m.length = rows ∧ ∀ row ∈ m, row.length = cols

/-! ## Checkpoint loading: `load_ner_model` (lines 355-362)

A checkpoint state dict is a Python dict embedded as an association list in
insertion order (new keys are appended at the end, as in a Python dict).
`load_ner_model` snapshots the key list, and for each key `n` absent from
the live parameter names such that `n + '_raw'` is a live name, moves the
tensor to `n + '_raw'` (unless already present) and deletes `n`; then it
delegates to `load_state_dict`. -/

/-- Checkpoint tensor payload. -/
abbrev Tensor := List Int

/-- First-match association lookup, the embedding of `sd[n]` / `n in sd`. -/
def lookupSD : List (String × Tensor) → String → Option Tensor
  | [], _ => none
  | (a, v) :: rest, k => if a = k then some v else lookupSD rest k

/-- Deletion `del sd[n]` of a dict key. -/
def delKey : List (String × Tensor) → String → List (String × Tensor)
  | [], _ => []
  | (a, v) :: rest, k => if a = k then delKey rest k else (a, v) :: delKey rest k

/-- One iteration of the reconciliation loop of `load_ner_model` lines
358-361 on key `n`: `if n not in names and n+'_raw' in names:` then
`if n+'_raw' not in sd: sd[n+'_raw'] = sd[n]` and `del sd[n]`.  The inner
assignment reads the current dict; a key `n` taken from the snapshot is
still present when its iteration runs, so the `none` fallback of the match
is never taken on the snapshot keys. -/
def reconcileStep (names : List String) (sd : List (String × Tensor)) (n : String) :
    List (String × Tensor) :=
  if n ∉ names ∧ (n ++ "_raw") ∈ names then
    delKey
      (if lookupSD sd (n ++ "_raw") = none then
        (match lookupSD sd n with
         | some v => sd ++ [(n ++ "_raw", v)]
         | none => sd)
       else sd) n
  else sd

/-- The loop `for n in list(sd.keys())` over the snapshot key list. -/
def reconcileAll (names : List String) : List String → List (String × Tensor) →
    List (String × Tensor)
  | [], sd => sd
  | n :: rest, sd => reconcileAll names rest (reconcileStep names sd n)

/-- Modelled from the spec: the torch `load_state_dict` collaborator
(spec 4.7, 7): with strict matching requested it "fails loudly (raises) if,
after reconciliation, any live parameter has no matching checkpoint entry",
with no partial load; on success every live parameter receives the
checkpoint tensor stored under its name. -/
def load_state_dict (liveNames : List String) (sd : List (String × Tensor))
    (strict : Bool) : Except String (List (String × Tensor)) :=
  if strict = true ∧ ∃ n ∈ liveNames, lookupSD sd n = none then
    Except.error "RuntimeError: missing keys in state_dict"
  else
    Except.ok (liveNames.filterMap (fun n => (lookupSD sd n).map (fun v => (n, v))))

/-- Embedding of `load_ner_model(m, p, strict)`: the live model contributes
its parameter-name set, the file `p` contributes the loaded state dict. -/
def load_ner_model (liveNames : List String) (sd : List (String × Tensor))
    (strict : Bool) : Except String (List (String × Tensor)) :=
  load_state_dict liveNames (reconcileAll liveNames (sd.map Prod.fst) sd) strict

/-! ## Fine-tune entry point: `fine_tune` (lines 130-136) and `fit` save paths

`fit(self, train, dev, epochs=None, fine_tune=False)` declares `train` and
`dev` as required positional parameters.  A Python call is embedded as
argument binding: a call that leaves a required parameter unbound raises
`TypeError` before the body runs. -/

/-- Arguments supplied to a call of `fit`; `none` marks an unbound required
parameter. -/
structure FitCallArgs where
  train : Option Unit
  dev : Option Unit
  epochs : Option Nat
  fine_tune : Bool

/-- Python-call binding for `fit`: `train` and `dev` have no defaults. -/
def bindFit (a : FitCallArgs) : Except String (Unit × Unit × Option Nat × Bool) :=
  match a.train, a.dev with
  | some t, some d => Except.ok (t, d, a.epochs, a.fine_tune)
  | _, _ =>
    Except.error "TypeError: fit() missing 2 required positional arguments: train and dev"

/-- The call `self.fit(epochs=1, fine_tune=True)` made by `fine_tune`
(line 136): no `train` and no `dev` argument is passed. -/
def fine_tune_call : Except String (Unit × Unit × Option Nat × Bool) :=
  bindFit (FitCallArgs.mk none none (some 1) true)

/-- Checkpoint name chosen by `fit` at lines 161-164: the fine-tune path on
`fine_tune=True`, the full-training path otherwise. -/
def fit_save_name (fine_tune : Bool) (ner_ft_path ner_model_path : String) : String :=
  if fine_tune then ner_ft_path else ner_model_path

/-! ## Device placement: the unconditional `.cuda()` calls

`NERLearner.__init__` guards the model transfer by
`torch.cuda.is_available()` (lines 20-25) but constructs the criterion as
`CRF(self.config.ntags).cuda()` unconditionally (line 28); `create_mask`
calls `.cuda()` on its fresh ones tensor unconditionally (line 332).
A `.cuda()` transfer raises when no CUDA device is available. -/

/-- Device transfer `.cuda()`: succeeds only when CUDA is available. -/
def cuda_transfer {α : Type _} (cuda_available : Bool) (x : α) : Except String α :=
  if cuda_available then Except.ok x
  else Except.error "AssertionError: torch not able to use CUDA"

/-- Observable constructor state of `NERLearner.__init__`. -/
structure LearnerInitState where
  use_cuda : Bool
  criterion_ntags : Nat

/-- Embedding of `NERLearner.__init__` (lines 13-29) restricted to device
placement: the model transfer is guarded by availability, the criterion
construction `CRF(ntags).cuda()` is not. -/
def NERLearner_init (cuda_available : Bool) (ntags : Nat) :
    Except String LearnerInitState :=
  let use_cuda := cuda_available
  (cuda_transfer cuda_available ntags).map
    (fun placed_ntags => LearnerInitState.mk use_cuda placed_ntags)

/-- Embedding of a full `create_mask` call including the `.cuda()` transfer
of the fresh ones tensor at line 332. -/
def create_mask_run (cuda_available : Bool) (sequence_lengths : List Nat)
    (rows cols : Nat) (batch_first : Bool) : Except String (List (List Bool)) :=
  (cuda_transfer cuda_available (List.replicate rows (List.replicate cols true))).map
    (fun ones => createMaskLoop rows cols batch_first sequence_lengths 0 ones)

/-! ## Lemmas and claim theorems -/

/-! ## Basic list access helpers -/

theorem getD_pos {α : Type _} (l : List α) (d : α) :
    ∀ r, (h : r < l.length) → l.getD r d = l.get ⟨r, h⟩ := by
  induction l with
  | nil => intro r h; simp at h
  | cons a t ih =>
    intro r h
    cases r with
    | zero => rfl
    | succ n => simpa [List.getD] using ih n (by simpa using h)

theorem getD_len_le {α : Type _} (l : List α) (d : α) (r : Nat) (h : l.length ≤ r) :
    l.getD r d = d := by
  induction l generalizing r with
  | nil => simp [List.getD]
  | cons a t ih =>
    cases r with
    | zero => simp at h
    | succ n => simpa [List.getD] using ih n (by simpa using h)

theorem setTrainableFrom_length (b : Bool) (n : Nat) :
    ∀ (l : List Bool) (t : Nat), (setTrainableFrom b n l t).length = l.length := by
  intro l
  induction l with
  | nil => intro t; rfl
  | cons g gs ih => intro t; simp [setTrainableFrom, ih]

theorem setTrainableFrom_getD (b : Bool) (n : Nat) :
    ∀ (l : List Bool) (t i : Nat), i < l.length →
      (setTrainableFrom b n l t).getD i false =
        (if n ≤ t + i then b else l.getD i false) := by
  intro l
  induction l with
  | nil => intro t i h; simp at h
  | cons g gs ih =>
    intro t i h
    cases i with
    | zero => simp [setTrainableFrom, List.getD]
    | succ j =>
      have hj : j < gs.length := by simpa using h
      have := ih (t + 1) j hj
      simpa [setTrainableFrom, List.getD, Nat.add_comm, Nat.add_left_comm,
        Nat.add_assoc] using this

theorem freeze_to_length (groups : List Bool) (n : Nat) :
    (freeze_to groups n).length = groups.length := by
  simp [freeze_to, setTrainableFrom_length]

theorem freeze_to_getD (groups : List Bool) (n i : Nat) (h : i < groups.length) :
    (freeze_to groups n).getD i false = decide (n ≤ i) := by
  have hm : i < (groups.map (fun _ => false)).length := by simpa using h
  have h1 := setTrainableFrom_getD true n (groups.map (fun _ => false)) 0 i hm
  have h2 : (groups.map (fun _ => false)).getD i false = false := by
    rw [getD_pos _ _ i hm]
    simp
  rw [freeze_to, h1, h2]
  by_cases hni : n ≤ i <;> simp [hni]

theorem foldl_optimizer_step_frozen (updates : List (List Int → List Int)) :
    ∀ (e : Param), e.requires_grad = false →
      updates.foldl (fun e u => optimizer_step u e) e = e := by
  induction updates with
  | nil => intro e _; rfl
  | cons u us ih =>
    intro e he
    have hstep : optimizer_step u e = e := by
      simp [optimizer_step, he]
    simpa [hstep] using ih e he

theorem accumulateCounts_le (samples : List (Finset Chunk × Finset Chunk)) :
    ∀ (a b d : Nat), a ≤ b → a ≤ d →
      (samples.foldl
        (fun acc s => (acc.1 + (s.1 ∩ s.2).card, acc.2.1 + s.2.card, acc.2.2 + s.1.card))
        (a, b, d)).1 ≤
      (samples.foldl
        (fun acc s => (acc.1 + (s.1 ∩ s.2).card, acc.2.1 + s.2.card, acc.2.2 + s.1.card))
        (a, b, d)).2.1 ∧
      (samples.foldl
        (fun acc s => (acc.1 + (s.1 ∩ s.2).card, acc.2.1 + s.2.card, acc.2.2 + s.1.card))
        (a, b, d)).1 ≤
      (samples.foldl
        (fun acc s => (acc.1 + (s.1 ∩ s.2).card, acc.2.1 + s.2.card, acc.2.2 + s.1.card))
        (a, b, d)).2.2 := by
  induction samples with
  | nil => intro a b d h1 h2; exact ⟨h1, h2⟩
  | cons s rest ih =>
    intro a b d h1 h2
    have hb : a + (s.1 ∩ s.2).card ≤ b + s.2.card :=
      Nat.add_le_add h1 (Finset.card_le_card (Finset.inter_subset_right))
    have hd : a + (s.1 ∩ s.2).card ≤ d + s.1.card :=
      Nat.add_le_add h2 (Finset.card_le_card (Finset.inter_subset_left))
    exact ih (a + (s.1 ∩ s.2).card) (b + s.2.card) (d + s.1.card) hb hd

theorem zip_map_take_getD (t : List (List Int)) :
    ∀ (lens : List Nat) (k : Nat), k < t.length → k < lens.length →
      ((t.zip lens).map (fun p => p.1.take p.2)).getD k [] =
        (t.getD k []).take (lens.getD k 0) := by
  induction t with
  | nil => intro lens k h _; simp at h
  | cons row rest ih =>
    intro lens k h1 h2
    cases lens with
    | nil => simp at h2
    | cons l ls =>
      cases k with
      | zero => rfl
      | succ j =>
        have hj1 : j < rest.length := by simpa using h1
        have hj2 : j < ls.length := by simpa using h2
        simpa [List.getD] using ih ls j hj1 hj2

theorem transposeT_getD (m : List (List Int)) (cols k : Nat) (h : k < cols) :
    (transposeT m cols).getD k [] = columnOf m k := by
  have hlen : k < ((List.range cols).map (fun j => columnOf m j)).length := by
    simpa using h
  rw [transposeT, getD_pos _ _ k hlen]
  simp

theorem zeroFrom_length (l : Nat) : ∀ (row : List Bool) (c : Nat),
    (zeroFrom l row c).length = row.length := by
  intro row
  induction row with
  | nil => intro c; rfl
  | cons b bs ih => intro c; simp [zeroFrom, ih]

theorem assignTM_rect {m : List (List Bool)} {rows cols : Nat} (l i : Nat)
    (h : Rect m rows cols) : ∀ t, Rect (assignTM l i m t) rows cols := by
  obtain ⟨h1, h2⟩ := h
  subst h1
  induction m with
  | nil => intro t; exact ⟨rfl, by intro row hr; simp [assignTM] at hr⟩
  | cons row rest ih =>
    intro t
    have hrow : row.length = cols := h2 row (by simp)
    have hrest : ∀ r ∈ rest, r.length = cols := by
      intro r hr; exact h2 r (by simp [hr])
    obtain ⟨ih1, ih2⟩ := ih hrest (t + 1)
    refine ⟨by simpa [assignTM] using congrArg Nat.succ ih1, ?_⟩
    intro r hr
    rcases List.mem_cons.mp hr with hE | hM
    · subst hE
      by_cases hlt : l ≤ t <;> simp [hlt, hrow]
    · exact ih2 r hM

theorem assignBM_rect {m : List (List Bool)} {rows cols : Nat} (i l : Nat)
    (h : Rect m rows cols) : ∀ r0, Rect (assignBM i l m r0) rows cols := by
  obtain ⟨h1, h2⟩ := h
  subst h1
  induction m with
  | nil => intro r0; exact ⟨rfl, by intro row hr; simp [assignBM] at hr⟩
  | cons row rest ih =>
    intro r0
    have hrow : row.length = cols := h2 row (by simp)
    have hrest : ∀ r ∈ rest, r.length = cols := by
      intro r hr; exact h2 r (by simp [hr])
    obtain ⟨ih1, ih2⟩ := ih hrest (r0 + 1)
    refine ⟨by simpa [assignBM] using congrArg Nat.succ ih1, ?_⟩
    intro r hr
    rcases List.mem_cons.mp hr with hE | hM
    · subst hE
      by_cases heq : r0 = i <;> simp [heq, zeroFrom_length, hrow]
    · exact ih2 r hM

theorem createMaskLoop_rect {rows cols : Nat} (batch_first : Bool) :
    ∀ (lens : List Nat) (i0 : Nat) (m : List (List Bool)), Rect m rows cols →
      Rect (createMaskLoop rows cols batch_first lens i0 m) rows cols := by
  intro lens
  induction lens with
  | nil => intro i0 m h; exact h
  | cons l rest ih =>
    intro i0 m h
    cases batch_first with
    | false =>
      by_cases hl : l < rows
      · have := ih (i0 + 1) (assignTM l i0 m 0) (assignTM_rect l i0 h 0)
        simpa [createMaskLoop, hl] using this
      · simpa [createMaskLoop, hl] using ih (i0 + 1) m h
    | true =>
      by_cases hl : l < cols
      · have := ih (i0 + 1) (assignBM i0 l m 0) (assignBM_rect i0 l h 0)
        simpa [createMaskLoop, hl] using this
      · simpa [createMaskLoop, hl] using ih (i0 + 1) m h

theorem rect_row_length {m : List (List Bool)} {rows cols : Nat}
    (h : Rect m rows cols) (r : Nat) (hr : r < rows) : (m.getD r []).length = cols := by
  obtain ⟨h1, h2⟩ := h
  have hrm : r < m.length := by omega
  rw [getD_pos _ _ r hrm]
  exact h2 _ (List.get_mem m r hrm)

theorem set_getD_self (row : List Bool) : ∀ (i : Nat), i < row.length →
    (row.set i false).getD i false = false := by
  induction row with
  | nil => intro i h; simp at h
  | cons b bs ih =>
    intro i h
    cases i with
    | zero => rfl
    | succ k => simpa [List.getD] using ih k (by simpa using h)

theorem set_getD_ne (row : List Bool) : ∀ (i c : Nat), c ≠ i →
    (row.set i false).getD c false = row.getD c false := by
  induction row with
  | nil => intro i c h; rfl
  | cons b bs ih =>
    intro i c h
    cases i with
    | zero =>
      cases c with
      | zero => exact absurd rfl h
      | succ j => rfl
    | succ k =>
      cases c with
      | zero => rfl
      | succ j => simpa [List.getD] using ih k j (by omega)

theorem assignTM_getD (l i : Nat) : ∀ (m : List (List Bool)) (t r : Nat), r < m.length →
    (assignTM l i m t).getD r [] =
      (if l ≤ t + r then (m.getD r []).set i false else m.getD r []) := by
  intro m
  induction m with
  | nil => intro t r h; simp at h
  | cons row rest ih =>
    intro t r h
    cases r with
    | zero => simp [assignTM, List.getD]
    | succ j =>
      have hj : j < rest.length := by simpa using h
      have := ih (t + 1) j hj
      have harith : t + 1 + j = t + (j + 1) := by omega
      rw [harith] at this
      simpa [assignTM, List.getD] using this

theorem zeroFrom_getD (l : Nat) : ∀ (row : List Bool) (c0 c : Nat), c < row.length →
    (zeroFrom l row c0).getD c false =
      (if l ≤ c0 + c then false else row.getD c false) := by
  intro row
  induction row with
  | nil => intro c0 c h; simp at h
  | cons b bs ih =>
    intro c0 c h
    cases c with
    | zero => simp [zeroFrom, List.getD]
    | succ j =>
      have hj : j < bs.length := by simpa using h
      have := ih (c0 + 1) j hj
      have harith : c0 + 1 + j = c0 + (j + 1) := by omega
      rw [harith] at this
      simpa [zeroFrom, List.getD] using this

theorem assignBM_getD (i l : Nat) : ∀ (m : List (List Bool)) (r0 r : Nat), r < m.length →
    (assignBM i l m r0).getD r [] =
      (if r0 + r = i then zeroFrom l (m.getD r []) 0 else m.getD r []) := by
  intro m
  induction m with
  | nil => intro r0 r h; simp at h
  | cons row rest ih =>
    intro r0 r h
    cases r with
    | zero => simp [assignBM, List.getD]
    | succ j =>
      have hj : j < rest.length := by simpa using h
      have := ih (r0 + 1) j hj
      have harith : r0 + 1 + j = r0 + (j + 1) := by omega
      rw [harith] at this
      simpa [assignBM, List.getD] using this

theorem assignTM_entry {m : List (List Bool)} {rows cols : Nat} (hm : Rect m rows cols)
    (l i r c : Nat) (hr : r < rows) (hc : c < cols) :
    entry (assignTM l i m 0) r c =
      (if l ≤ r ∧ c = i then false else entry m r c) := by
  have hrm : r < m.length := by
    obtain ⟨h1, _⟩ := hm; omega
  have hrow := assignTM_getD l i m 0 r hrm
  simp only [Nat.zero_add] at hrow
  unfold entry
  rw [hrow]
  by_cases hl : l ≤ r
  · by_cases hci : c = i
    · subst hci
      have hclen : c < (m.getD r []).length := by
        rw [rect_row_length hm r hr]; exact hc
      rw [if_pos hl, if_pos ⟨hl, rfl⟩, set_getD_self _ c hclen]
    · rw [if_pos hl, set_getD_ne _ i c hci, if_neg (fun h => hci h.2)]
  · rw [if_neg hl, if_neg (fun h => hl h.1)]

theorem assignBM_entry {m : List (List Bool)} {rows cols : Nat} (hm : Rect m rows cols)
    (i l r c : Nat) (hr : r < rows) (hc : c < cols) :
    entry (assignBM i l m 0) r c =
      (if r = i ∧ l ≤ c then false else entry m r c) := by
  have hrm : r < m.length := by
    obtain ⟨h1, _⟩ := hm; omega
  have hrow := assignBM_getD i l m 0 r hrm
  simp only [Nat.zero_add] at hrow
  unfold entry
  rw [hrow]
  by_cases hri : r = i
  · have hclen : c < (m.getD r []).length := by
      rw [rect_row_length hm r hr]; exact hc
    have hz := zeroFrom_getD l (m.getD r []) 0 c hclen
    simp only [Nat.zero_add] at hz
    rw [if_pos hri, hz]
    by_cases hl : l ≤ c
    · rw [if_pos hl, if_pos ⟨hri, hl⟩]
    · rw [if_neg hl, if_neg (fun h => hl h.2)]
  · rw [if_neg hri, if_neg (fun h => hri h.1)]

theorem cond_shift (l : Nat) (rest : List Nat) (i0 c r : Nat) (hci : c ≠ i0) :
    (i0 + 1 ≤ c ∧ c - (i0 + 1) < rest.length ∧ rest.getD (c - (i0 + 1)) 0 ≤ r) ↔
    (i0 ≤ c ∧ c - i0 < (l :: rest).length ∧ (l :: rest).getD (c - i0) 0 ≤ r) := by
  by_cases hlt : i0 < c
  · have hsub : c - i0 = (c - (i0 + 1)) + 1 := by omega
    have hgd : (l :: rest).getD (c - i0) 0 = rest.getD (c - (i0 + 1)) 0 := by
      rw [hsub]; simp [List.getD]
    constructor
    · rintro ⟨h1, h2, h3⟩
      refine ⟨by omega, by simp; omega, by rw [hgd]; exact h3⟩
    · rintro ⟨h1, h2, h3⟩
      simp at h2
      refine ⟨by omega, by omega, by rw [hgd] at h3; exact h3⟩
  · constructor
    · rintro ⟨h1, _, _⟩; omega
    · rintro ⟨h1, _, _⟩; omega

theorem createMaskLoop_entry_tm (rows cols r c : Nat) (hr : r < rows) (hc : c < cols) :
    ∀ (lens : List Nat) (i0 : Nat) (m : List (List Bool)), Rect m rows cols →
      entry (createMaskLoop rows cols false lens i0 m) r c =
        (if i0 ≤ c ∧ c - i0 < lens.length ∧ lens.getD (c - i0) 0 ≤ r then false
         else entry m r c) := by
  intro lens
  induction lens with
  | nil =>
    intro i0 m hm
    have h1 : ¬(i0 ≤ c ∧ c - i0 < ([] : List Nat).length ∧
        ([] : List Nat).getD (c - i0) 0 ≤ r) := by
      rintro ⟨_, h2, _⟩; simp at h2
    rw [if_neg h1]
    rfl
  | cons l rest ih =>
    intro i0 m hm
    by_cases hl : l < rows
    case pos =>
      have hm2 : Rect (assignTM l i0 m 0) rows cols := assignTM_rect l i0 hm 0
      have hloop : createMaskLoop rows cols false (l :: rest) i0 m =
          createMaskLoop rows cols false rest (i0 + 1) (assignTM l i0 m 0) := by
        simp [createMaskLoop, hl]
      rw [hloop, ih (i0 + 1) _ hm2, assignTM_entry hm l i0 r c hr hc]
      by_cases hci : c = i0
      · subst hci
        have hne : ¬(c + 1 ≤ c ∧ c - (c + 1) < rest.length ∧
            rest.getD (c - (c + 1)) 0 ≤ r) := by
          rintro ⟨ha, _, _⟩; omega
        rw [if_neg hne]
        have hgd : (l :: rest).getD (c - c) 0 = l := by
          rw [Nat.sub_self]; rfl
        by_cases hlr : l ≤ r
        · rw [if_pos ⟨hlr, rfl⟩,
            if_pos ⟨Nat.le_refl c, by simp, by rw [hgd]; exact hlr⟩]
        · rw [if_neg (fun h => hlr h.1), if_neg (fun h => hlr (hgd ▸ h.2.2))]
      · have hinner : ¬(l ≤ r ∧ c = i0) := fun h => hci h.2
        rw [if_neg hinner]
        have hiff := cond_shift l rest i0 c r hci
        by_cases hP : i0 + 1 ≤ c ∧ c - (i0 + 1) < rest.length ∧
            rest.getD (c - (i0 + 1)) 0 ≤ r
        · rw [if_pos hP, if_pos (hiff.mp hP)]
        · rw [if_neg hP, if_neg (fun h => hP (hiff.mpr h))]
    case neg =>
      have hloop : createMaskLoop rows cols false (l :: rest) i0 m =
          createMaskLoop rows cols false rest (i0 + 1) m := by
        simp [createMaskLoop, hl]
      rw [hloop, ih (i0 + 1) m hm]
      by_cases hci : c = i0
      · subst hci
        have hne1 : ¬(c + 1 ≤ c ∧ c - (c + 1) < rest.length ∧
            rest.getD (c - (c + 1)) 0 ≤ r) := by
          rintro ⟨ha, _, _⟩; omega
        have hgd : (l :: rest).getD (c - c) 0 = l := by
          rw [Nat.sub_self]; rfl
        have hne2 : ¬(c ≤ c ∧ c - c < (l :: rest).length ∧
            (l :: rest).getD (c - c) 0 ≤ r) := by
          rintro ⟨_, _, h3⟩
          rw [hgd] at h3
          omega
        rw [if_neg hne1, if_neg hne2]
      · have hiff := cond_shift l rest i0 c r hci
        by_cases hP : i0 + 1 ≤ c ∧ c - (i0 + 1) < rest.length ∧
            rest.getD (c - (i0 + 1)) 0 ≤ r
        · rw [if_pos hP, if_pos (hiff.mp hP)]
        · rw [if_neg hP, if_neg (fun h => hP (hiff.mpr h))]

theorem createMaskLoop_entry_bm (rows cols r c : Nat) (hr : r < rows) (hc : c < cols) :
    ∀ (lens : List Nat) (i0 : Nat) (m : List (List Bool)), Rect m rows cols →
      entry (createMaskLoop rows cols true lens i0 m) r c =
        (if i0 ≤ r ∧ r - i0 < lens.length ∧ lens.getD (r - i0) 0 ≤ c then false
         else entry m r c) := by
  intro lens
  induction lens with
  | nil =>
    intro i0 m hm
    have h1 : ¬(i0 ≤ r ∧ r - i0 < ([] : List Nat).length ∧
        ([] : List Nat).getD (r - i0) 0 ≤ c) := by
      rintro ⟨_, h2, _⟩; simp at h2
    rw [if_neg h1]
    rfl
  | cons l rest ih =>
    intro i0 m hm
    by_cases hl : l < cols
    case pos =>
      have hm2 : Rect (assignBM i0 l m 0) rows cols := assignBM_rect i0 l hm 0
      have hloop : createMaskLoop rows cols true (l :: rest) i0 m =
          createMaskLoop rows cols true rest (i0 + 1) (assignBM i0 l m 0) := by
        simp [createMaskLoop, hl]
      rw [hloop, ih (i0 + 1) _ hm2, assignBM_entry hm i0 l r c hr hc]
      by_cases hri : r = i0
      · subst hri
        have hne : ¬(r + 1 ≤ r ∧ r - (r + 1) < rest.length ∧
            rest.getD (r - (r + 1)) 0 ≤ c) := by
          rintro ⟨ha, _, _⟩; omega
        rw [if_neg hne]
        have hgd : (l :: rest).getD (r - r) 0 = l := by
          rw [Nat.sub_self]; rfl
        by_cases hlc : l ≤ c
        · rw [if_pos ⟨rfl, hlc⟩,
            if_pos ⟨Nat.le_refl r, by simp, by rw [hgd]; exact hlc⟩]
        · rw [if_neg (fun h => hlc h.2), if_neg (fun h => hlc (hgd ▸ h.2.2))]
      · have hinner : ¬(r = i0 ∧ l ≤ c) := fun h => hri h.1
        rw [if_neg hinner]
        have hiff := cond_shift l rest i0 r c hri
        by_cases hP : i0 + 1 ≤ r ∧ r - (i0 + 1) < rest.length ∧
            rest.getD (r - (i0 + 1)) 0 ≤ c
        · rw [if_pos hP, if_pos (hiff.mp hP)]
        · rw [if_neg hP, if_neg (fun h => hP (hiff.mpr h))]
    case neg =>
      have hloop : createMaskLoop rows cols true (l :: rest) i0 m =
          createMaskLoop rows cols true rest (i0 + 1) m := by
        simp [createMaskLoop, hl]
      rw [hloop, ih (i0 + 1) m hm]
      by_cases hri : r = i0
      · subst hri
        have hne1 : ¬(r + 1 ≤ r ∧ r - (r + 1) < rest.length ∧
            rest.getD (r - (r + 1)) 0 ≤ c) := by
          rintro ⟨ha, _, _⟩; omega
        have hgd : (l :: rest).getD (r - r) 0 = l := by
          rw [Nat.sub_self]; rfl
        have hne2 : ¬(r ≤ r ∧ r - r < (l :: rest).length ∧
            (l :: rest).getD (r - r) 0 ≤ c) := by
          rintro ⟨_, _, h3⟩
          rw [hgd] at h3
          omega
        rw [if_neg hne1, if_neg hne2]
      · have hiff := cond_shift l rest i0 r c hri
        by_cases hP : i0 + 1 ≤ r ∧ r - (i0 + 1) < rest.length ∧
            rest.getD (r - (i0 + 1)) 0 ≤ c
        · rw [if_pos hP, if_pos (hiff.mp hP)]
        · rw [if_neg hP, if_neg (fun h => hP (hiff.mpr h))]

theorem rect_replicate (rows cols : Nat) :
    Rect (List.replicate rows (List.replicate cols true)) rows cols := by
  refine ⟨by simp, ?_⟩
  intro row hrow
  rw [List.eq_of_mem_replicate hrow]
  simp

theorem entry_replicate (rows cols r c : Nat) (hr : r < rows) (hc : c < cols) :
    entry (List.replicate rows (List.replicate cols true)) r c = true := by
  have h1 : (List.replicate rows (List.replicate cols true)).getD r [] =
      List.replicate cols true := by
    rw [getD_pos _ _ r (by simpa using hr)]
    simp
  unfold entry
  rw [h1, getD_pos _ _ c (by simpa using hc)]
  simp

theorem lookupSD_append_some {sd : List (String × Tensor)} {k : String} {v : Tensor}
    (h : lookupSD sd k = some v) (l : List (String × Tensor)) :
    lookupSD (sd ++ l) k = some v := by
  induction sd with
  | nil => simp [lookupSD] at h
  | cons p rest ih =>
    obtain ⟨a, w⟩ := p
    by_cases hak : a = k
    · simpa [lookupSD, hak] using h
    · simp only [lookupSD, List.cons_append, if_neg hak] at h ⊢
      exact ih h

theorem lookupSD_append_ne (sd : List (String × Tensor)) (k a : String) (v : Tensor)
    (h : a ≠ k) : lookupSD (sd ++ [(a, v)]) k = lookupSD sd k := by
  induction sd with
  | nil => simp [lookupSD, h]
  | cons p rest ih =>
    obtain ⟨b, w⟩ := p
    by_cases hbk : b = k <;> simp [lookupSD, hbk, ih]

theorem lookupSD_append_self (sd : List (String × Tensor)) (a : String) (v : Tensor)
    (h : lookupSD sd a = none) : lookupSD (sd ++ [(a, v)]) a = some v := by
  induction sd with
  | nil => simp [lookupSD]
  | cons p rest ih =>
    obtain ⟨b, w⟩ := p
    by_cases hba : b = a
    · simp [lookupSD, hba] at h
    · have h2 : lookupSD rest a = none := by simpa [lookupSD, hba] using h
      simpa [lookupSD, hba] using ih h2

theorem lookupSD_delKey_ne (sd : List (String × Tensor)) (k n : String) (h : k ≠ n) :
    lookupSD (delKey sd n) k = lookupSD sd k := by
  induction sd with
  | nil => rfl
  | cons p rest ih =>
    obtain ⟨a, w⟩ := p
    by_cases han : a = n
    · have hak : ¬a = k := by
        intro hh
        rw [hh] at han
        exact h han
      rw [show delKey ((a, w) :: rest) n = delKey rest n from by simp [delKey, han]]
      rw [show lookupSD ((a, w) :: rest) k = lookupSD rest k from by simp [lookupSD, hak]]
      exact ih
    · rw [show delKey ((a, w) :: rest) n = (a, w) :: delKey rest n from by
        simp [delKey, han]]
      by_cases hak : a = k
      · rw [show lookupSD ((a, w) :: delKey rest n) k = some w from by
          simp [lookupSD, hak]]
        rw [show lookupSD ((a, w) :: rest) k = some w from by simp [lookupSD, hak]]
      · rw [show lookupSD ((a, w) :: delKey rest n) k = lookupSD (delKey rest n) k from by
          simp [lookupSD, hak]]
        rw [show lookupSD ((a, w) :: rest) k = lookupSD rest k from by
          simp [lookupSD, hak]]
        exact ih

theorem lookupSD_delKey_none (sd : List (String × Tensor)) (k n : String)
    (h : lookupSD sd k = none) : lookupSD (delKey sd n) k = none := by
  induction sd with
  | nil => rfl
  | cons p rest ih =>
    obtain ⟨a, w⟩ := p
    by_cases hak : a = k
    · simp [lookupSD, hak] at h
    · have h2 : lookupSD rest k = none := by simpa [lookupSD, hak] using h
      by_cases han : a = n <;> simp [delKey, lookupSD, han, hak, ih h2]

theorem lookupSD_some_mem (sd : List (String × Tensor)) (k : String) (v : Tensor)
    (h : lookupSD sd k = some v) : k ∈ sd.map Prod.fst := by
  induction sd with
  | nil => simp [lookupSD] at h
  | cons p rest ih =>
    obtain ⟨a, w⟩ := p
    by_cases hak : a = k
    · simp [hak]
    · have h2 : lookupSD rest k = some v := by simpa [lookupSD, hak] using h
      simp [ih h2]

theorem append_raw_inj {a b : String} (h : a ++ "_raw" = b ++ "_raw") : a = b := by
  have hd : a.data ++ ("_raw" : String).data = b.data ++ ("_raw" : String).data := by
    have h2 := congrArg String.data h
    simpa [String.data_append] using h2
  exact String.ext (List.append_cancel_right hd)

theorem raw_ne (n : String) : (n ++ "_raw") ≠ n := by
  intro h
  have h2 := congrArg String.length h
  rw [String.length_append] at h2
  have h4 : ("_raw" : String).length = 4 := rfl
  rw [h4] at h2
  omega

theorem reconcileStep_some_preserved (names : List String)
    (sd : List (String × Tensor)) (n k : String) (v : Tensor)
    (h : lookupSD sd k = some v) (hkn : k ≠ n) :
    lookupSD (reconcileStep names sd n) k = some v := by
  unfold reconcileStep
  by_cases hcond : n ∉ names ∧ (n ++ "_raw") ∈ names
  · rw [if_pos hcond]
    have hsd2 : lookupSD
        (if lookupSD sd (n ++ "_raw") = none then
          (match lookupSD sd n with
           | some v => sd ++ [(n ++ "_raw", v)]
           | none => sd)
         else sd) k = some v := by
      by_cases hnr : lookupSD sd (n ++ "_raw") = none
      · rw [if_pos hnr]
        cases hval : lookupSD sd n with
        | none => simpa using h
        | some w => simpa using lookupSD_append_some h [(n ++ "_raw", w)]
      · rw [if_neg hnr]; exact h
    rw [lookupSD_delKey_ne _ k n hkn]
    exact hsd2
  · rw [if_neg hcond]; exact h

theorem reconcileStep_none_preserved (names : List String)
    (sd : List (String × Tensor)) (n k : String)
    (hk : lookupSD sd k = none) (hne : n ++ "_raw" ≠ k) :
    lookupSD (reconcileStep names sd n) k = none := by
  unfold reconcileStep
  by_cases hcond : n ∉ names ∧ (n ++ "_raw") ∈ names
  · rw [if_pos hcond]
    apply lookupSD_delKey_none
    by_cases hnr : lookupSD sd (n ++ "_raw") = none
    · rw [if_pos hnr]
      cases hval : lookupSD sd n with
      | none => simpa using hk
      | some w =>
        simpa [lookupSD_append_ne sd k (n ++ "_raw") w hne] using hk
    · rw [if_neg hnr]; exact hk
  · rw [if_neg hcond]; exact hk

theorem reconcileStep_moves (names : List String) (sd : List (String × Tensor))
    (n : String) (v : Tensor)
    (h1 : n ∉ names) (h2 : (n ++ "_raw") ∈ names)
    (h3 : lookupSD sd n = some v) (h4 : lookupSD sd (n ++ "_raw") = none) :
    lookupSD (reconcileStep names sd n) (n ++ "_raw") = some v := by
  unfold reconcileStep
  rw [if_pos ⟨h1, h2⟩, if_pos h4, h3]
  rw [lookupSD_delKey_ne _ (n ++ "_raw") n (raw_ne n)]
  exact lookupSD_append_self sd (n ++ "_raw") v h4

theorem reconcileAll_preserved (names : List String) (k : String) (v : Tensor)
    (hk : k ∈ names) : ∀ (ks : List String) (sd : List (String × Tensor)),
      lookupSD sd k = some v →
      lookupSD (reconcileAll names ks sd) k = some v := by
  intro ks
  induction ks with
  | nil => intro sd h; exact h
  | cons n rest ih =>
    intro sd h
    simp only [reconcileAll]
    by_cases hcond : n ∉ names ∧ (n ++ "_raw") ∈ names
    · have hkn : k ≠ n := fun he => hcond.1 (he ▸ hk)
      exact ih _ (reconcileStep_some_preserved names sd n k v h hkn)
    · have hstep : reconcileStep names sd n = sd := by
        unfold reconcileStep; rw [if_neg hcond]
      rw [hstep]
      exact ih _ h

theorem reconcileAll_w (names : List String) (v : Tensor)
    (hw1 : "w" ∉ names) (hw2 : ("w" ++ "_raw") ∈ names) :
    ∀ (ks : List String) (sd : List (String × Tensor)), "w" ∈ ks →
      lookupSD sd "w" = some v → lookupSD sd ("w" ++ "_raw") = none →
      lookupSD (reconcileAll names ks sd) ("w" ++ "_raw") = some v := by
  intro ks
  induction ks with
  | nil => intro sd h; simp at h
  | cons n rest ih =>
    intro sd hmem hw hwr
    simp only [reconcileAll]
    by_cases hn : n = "w"
    · subst hn
      have hstep := reconcileStep_moves names sd "w" v hw1 hw2 hw hwr
      exact reconcileAll_preserved names _ v hw2 rest _ hstep
    · have hmem2 : "w" ∈ rest := by
        rcases List.mem_cons.mp hmem with h | h
        · exact absurd h (fun he => hn he.symm)
        · exact h
      have hwstep : lookupSD (reconcileStep names sd n) "w" = some v :=
        reconcileStep_some_preserved names sd n "w" v hw (fun he => hn he.symm)
      have hwrstep : lookupSD (reconcileStep names sd n) ("w" ++ "_raw") = none := by
        apply reconcileStep_none_preserved names sd n _ hwr
        intro he
        exact hn (append_raw_inj he)
      exact ih _ hmem2 hwstep hwrstep

theorem lookupSD_filterMap (liveNames : List String) (sd : List (String × Tensor))
    (k : String) (v : Tensor) (hk : k ∈ liveNames) (h : lookupSD sd k = some v) :
    lookupSD (liveNames.filterMap (fun n => (lookupSD sd n).map (fun w => (n, w)))) k =
      some v := by
  induction liveNames with
  | nil => simp at hk
  | cons n rest ih =>
    by_cases hnk : n = k
    · subst hnk
      simp [List.filterMap_cons, h, lookupSD]
    · rcases List.mem_cons.mp hk with he | hm
      · exact absurd he (fun hh => hnk hh.symm)
      · cases hval : lookupSD sd n with
        | none => simpa [List.filterMap_cons, hval] using ih hm
        | some w => simpa [List.filterMap_cons, hval, lookupSD, hnk] using ih hm

theorem accumulateCounts_bounds (samples : List (Finset Chunk × Finset Chunk)) :
    (accumulateCounts samples).1 ≤ (accumulateCounts samples).2.1 ∧
    (accumulateCounts samples).1 ≤ (accumulateCounts samples).2.2 :=
  accumulateCounts_le samples 0 0 0 (Nat.le_refl 0) (Nat.le_refl 0)

/-- C1: for every list of sequence lengths and every target tensor shape,
`create_mask` returns a mask of the target's shape in which, for each sample
`i` with true length `l`, positions before `l` are true and positions at or
after `l` are false, in both orientations: time-major (`mask[l:, i] == 0`,
`mask[:l, i] == 1`) when `batch_first` is false, and batch-major
(`mask[i, l:] == 0`, `mask[i, :l] == 1`) when `batch_first` is true; the
function is pure, hence deterministic and non-mutating. -/
theorem c1_create_mask_correct (sequence_lengths : List Nat) (rows cols i t : Nat)
    (hi : i < sequence_lengths.length) :
    Rect (create_mask sequence_lengths rows cols false) rows cols ∧
    Rect (create_mask sequence_lengths rows cols true) rows cols ∧
    (i < cols → t < rows →
      entry (create_mask sequence_lengths rows cols false) t i =
        decide (t < sequence_lengths.getD i 0)) ∧
    (i < rows → t < cols →
      entry (create_mask sequence_lengths rows cols true) i t =
        decide (t < sequence_lengths.getD i 0)) := by
  refine ⟨createMaskLoop_rect false sequence_lengths 0 _ (rect_replicate rows cols),
    createMaskLoop_rect true sequence_lengths 0 _ (rect_replicate rows cols), ?_, ?_⟩
  · intro hic htr
    have h := createMaskLoop_entry_tm rows cols t i htr hic sequence_lengths 0 _
      (rect_replicate rows cols)
    rw [create_mask, h]
    by_cases hcond : sequence_lengths.getD i 0 ≤ t
    · rw [if_pos ⟨Nat.zero_le i, by simpa using hi, by simpa using hcond⟩]
      have hnlt : ¬t < sequence_lengths.getD i 0 := Nat.not_lt.mpr hcond
      exact (decide_eq_false hnlt).symm
    · rw [if_neg (fun hh => hcond (by simpa using hh.2.2)),
        entry_replicate rows cols t i htr hic]
      have hlt : t < sequence_lengths.getD i 0 := Nat.not_le.mp hcond
      exact (decide_eq_true hlt).symm
  · intro hir htc
    have h := createMaskLoop_entry_bm rows cols i t hir htc sequence_lengths 0 _
      (rect_replicate rows cols)
    rw [create_mask, h]
    by_cases hcond : sequence_lengths.getD i 0 ≤ t
    · rw [if_pos ⟨Nat.zero_le i, by simpa using hi, by simpa using hcond⟩]
      have hnlt : ¬t < sequence_lengths.getD i 0 := Nat.not_lt.mpr hcond
      exact (decide_eq_false hnlt).symm
    · rw [if_neg (fun hh => hcond (by simpa using hh.2.2)),
        entry_replicate rows cols i t hir htc]
      have hlt : t < sequence_lengths.getD i 0 := Nat.not_le.mp hcond
      exact (decide_eq_true hlt).symm

/-- Witness for C1: lengths [2, 3], a 3 x 2 time-major target, sample 0,
position 2 is masked out while position 1 is kept. -/
theorem c1_create_mask_correct_witness :
    entry (create_mask [2, 3] 3 2 false) 2 0 = false := by
  have h := (c1_create_mask_correct [2, 3] 3 2 0 2 (by decide)).2.2.1
    (by decide) (by decide)
  rw [h]
  decide

/-- C2: `mask_targets` returns, for sample `k`, exactly the first
`sequence_lengths[k]` target ids of that sample, so the token-by-token
comparison of the evaluation loop never sees a padded position: the
comparison list computed from the truncated row equals the one computed from
the unpadded gold tags, for every padding content. -/
theorem c2_mask_targets_truncates (targets : List (List Int)) (cols : Nat)
    (sequence_lengths : List Nat) (k : Nat) (gold pad pred : List Int)
    (hk1 : k < cols) (hk2 : k < sequence_lengths.length)
    (hcol : columnOf targets k = gold ++ pad)
    (hlen : gold.length = sequence_lengths.getD k 0) :
    (mask_targets targets cols sequence_lengths false).getD k [] = gold ∧
    sampleAccs ((mask_targets targets cols sequence_lengths false).getD k []) pred =
      sampleAccs gold pred := by
  have hrow : (mask_targets targets cols sequence_lengths false).getD k [] = gold := by
    rw [show mask_targets targets cols sequence_lengths false =
        ((transposeT targets cols).zip sequence_lengths).map (fun p => p.1.take p.2)
      from rfl]
    have ht : k < (transposeT targets cols).length := by
      simpa [transposeT] using hk1
    rw [zip_map_take_getD (transposeT targets cols) sequence_lengths k ht hk2]
    rw [transposeT_getD targets cols k hk1, hcol, ← hlen]
    exact List.take_left gold pad
  exact ⟨hrow, by rw [hrow]⟩

/-- Witness for C2: a sample of true length 3 padded to length 5 with two
junk padded tags; the truncated gold row is exactly the first 3 tags. -/
theorem c2_mask_targets_truncates_witness :
    (mask_targets [[1], [2], [3], [9], [9]] 1 [3] false).getD 0 [] = [1, 2, 3] :=
  (c2_mask_targets_truncates [[1], [2], [3], [9], [9]] 1 [3] 0
    [1, 2, 3] [9, 9] [1, 2, 7] (by decide) (by decide) (by decide) (by decide)).1

/-- C3: with the accumulated counts of the evaluation loop, if
`correct_preds > 0` then precision is `correct_preds/total_preds`, recall is
`correct_preds/total_correct` and F1 is `2pr/(p+r)`, with all three
denominators provably nonzero (no division by zero is performed); if
`correct_preds = 0` all three metrics are exactly 0. -/
theorem c3_eval_metrics (samples : List (Finset Chunk × Finset Chunk))
    (c tp tc : Nat) (h : accumulateCounts samples = (c, tp, tc)) :
    (0 < c →
      0 < tp ∧ 0 < tc ∧
      (c : ℚ) / tp + (c : ℚ) / tc ≠ 0 ∧
      evalMetrics c tp tc =
        ((c : ℚ) / tp, (c : ℚ) / tc,
         2 * ((c : ℚ) / tp) * ((c : ℚ) / tc) / ((c : ℚ) / tp + (c : ℚ) / tc))) ∧
    (c = 0 → evalMetrics c tp tc = (0, 0, 0)) := by
  have hb1 : c ≤ tp := by
    have hx := (accumulateCounts_bounds samples).1
    rw [h] at hx
    exact hx
  have hb2 : c ≤ tc := by
    have hx := (accumulateCounts_bounds samples).2
    rw [h] at hx
    exact hx
  constructor
  · intro hc
    have htp : 0 < tp := Nat.lt_of_lt_of_le hc hb1
    have htc : 0 < tc := Nat.lt_of_lt_of_le hc hb2
    have hcq : 0 < (c : ℚ) := by exact_mod_cast hc
    have htpq : 0 < (tp : ℚ) := by exact_mod_cast htp
    have htcq : 0 < (tc : ℚ) := by exact_mod_cast htc
    have hp : 0 < (c : ℚ) / tp := div_pos hcq htpq
    have hrq : 0 < (c : ℚ) / tc := div_pos hcq htcq
    have hsum : 0 < (c : ℚ) / tp + (c : ℚ) / tc := add_pos hp hrq
    exact ⟨htp, htc, ne_of_gt hsum, by simp [evalMetrics, hc]⟩
  · intro hc
    subst hc
    simp [evalMetrics]

/-- Witness for C3: one sample whose gold and predicted chunk sets coincide
in a single chunk; all three metrics take their positive-branch values. -/
theorem c3_eval_metrics_witness :
    evalMetrics 1 1 1 = ((1 : ℚ) / 1, (1 : ℚ) / 1,
      2 * ((1 : ℚ) / 1) * ((1 : ℚ) / 1) / ((1 : ℚ) / 1 + (1 : ℚ) / 1)) :=
  (((c3_eval_metrics [({("L", 0, 1)}, {("L", 0, 1)})] 1 1 1 (by decide)).1)
    (by decide)).2.2.2

/-- C4: for every live model whose parameter names include `w_raw` (and not
`w`) and every checkpoint containing a tensor under `w` with no `w_raw`
entry, reconciliation moves the tensor to `w_raw`; if every live parameter is
then matched the strict load succeeds and `w_raw` receives the value stored
under `w`, and if some live parameter is still unmatched the strict load
returns an error with no partial load. -/
theorem c4_load_reconciles_w_raw (liveNames : List String)
    (sd : List (String × Tensor)) (v : Tensor)
    (h1 : "w_raw" ∈ liveNames) (h2 : "w" ∉ liveNames)
    (h3 : lookupSD sd "w" = some v) (h4 : lookupSD sd "w_raw" = none) :
    lookupSD (reconcileAll liveNames (sd.map Prod.fst) sd) "w_raw" = some v ∧
    ((∀ n ∈ liveNames,
        lookupSD (reconcileAll liveNames (sd.map Prod.fst) sd) n ≠ none) →
      ∃ res, load_ner_model liveNames sd true = Except.ok res ∧
        lookupSD res "w_raw" = some v) ∧
    ((∃ n ∈ liveNames,
        lookupSD (reconcileAll liveNames (sd.map Prod.fst) sd) n = none) →
      load_ner_model liveNames sd true =
        Except.error "RuntimeError: missing keys in state_dict") := by
  have hlit : ("w" ++ "_raw" : String) = "w_raw" := rfl
  have hmain : lookupSD (reconcileAll liveNames (sd.map Prod.fst) sd) "w_raw"
      = some v := by
    rw [← hlit]
    exact reconcileAll_w liveNames v h2 (by rw [hlit]; exact h1)
      (sd.map Prod.fst) sd (lookupSD_some_mem sd "w" v h3) h3 (by rw [hlit]; exact h4)
  refine ⟨hmain, ?_, ?_⟩
  · intro hall
    have hcond : ¬(true = true ∧ ∃ n ∈ liveNames,
        lookupSD (reconcileAll liveNames (sd.map Prod.fst) sd) n = none) := by
      rintro ⟨_, n, hn, hnone⟩
      exact hall n hn hnone
    refine ⟨liveNames.filterMap (fun n =>
        (lookupSD (reconcileAll liveNames (sd.map Prod.fst) sd) n).map
          (fun w => (n, w))), ?_, ?_⟩
    · unfold load_ner_model load_state_dict
      rw [if_neg hcond]
    · exact lookupSD_filterMap liveNames
        (reconcileAll liveNames (sd.map Prod.fst) sd) "w_raw" v h1 hmain
  · rintro ⟨n, hn, hnone⟩
    unfold load_ner_model load_state_dict
    rw [if_pos ⟨rfl, n, hn, hnone⟩]

/-- Witness for C4: live names `[w_raw]`, checkpoint `{w: [7]}`; after
reconciliation the tensor sits under `w_raw`. -/
theorem c4_load_reconciles_w_raw_witness :
    lookupSD (reconcileAll ["w_raw"] ([("w", ([7] : Tensor))].map Prod.fst)
      [("w", ([7] : Tensor))]) "w_raw" = some [7] :=
  (c4_load_reconciles_w_raw ["w_raw"] [("w", [7])] [7]
    (by decide) (by decide) (by decide) (by decide)).1

/-- C5 counterexample: a checkpoint containing `X_raw` against a live model
whose names contain `X` only.  The claim asserts this "vice versa" direction
is remapped and the strict load succeeds; the code leaves `X_raw` untouched
and the strict load errors. -/
theorem c5_counterexample_reverse_not_remapped :
    load_ner_model ["X"] [("X_raw", ([3] : Tensor))] true =
      Except.error "RuntimeError: missing keys in state_dict" := by
  have hstep : reconcileStep ["X"] [("X_raw", ([3] : Tensor))] "X_raw" =
      [("X_raw", ([3] : Tensor))] := by
    unfold reconcileStep
    rw [if_neg (fun h => absurd h.2 (by decide))]
  have hrec : reconcileAll ["X"] ([("X_raw", ([3] : Tensor))].map Prod.fst)
      [("X_raw", ([3] : Tensor))] = [("X_raw", ([3] : Tensor))] := by
    simp only [List.map, reconcileAll, hstep]
  unfold load_ner_model
  rw [hrec]
  unfold load_state_dict
  have hlx : lookupSD [("X_raw", ([3] : Tensor))] "X" = none := by
    show (if "X_raw" = "X" then some ([3] : Tensor) else lookupSD [] "X") = none
    rw [if_neg (by decide)]
    rfl
  rw [if_pos ⟨rfl, "X", by decide, hlx⟩]

/-- C5 amended: checkpoint-name reconciliation is one-directional.  A
checkpoint tensor under `X` with live name `X_raw` is remapped (see C4), but
in the reverse situation — checkpoint tensor under `X_raw`, live names
containing `X` and nothing matching `X_raw` — no remapping happens and the
strict load raises, for every tensor value. -/
theorem c5_amended_one_directional (v : Tensor) :
    load_ner_model ["X"] [("X_raw", v)] true =
      Except.error "RuntimeError: missing keys in state_dict" := by
  have hstep : reconcileStep ["X"] [("X_raw", v)] "X_raw" = [("X_raw", v)] := by
    unfold reconcileStep
    rw [if_neg (fun h => absurd h.2 (by decide))]
  have hrec : reconcileAll ["X"] ([("X_raw", v)].map Prod.fst) [("X_raw", v)] =
      [("X_raw", v)] := by
    simp only [List.map, reconcileAll, hstep]
  unfold load_ner_model
  rw [hrec]
  unfold load_state_dict
  have hlx : lookupSD [("X_raw", v)] "X" = none := by
    show (if "X_raw" = "X" then some v else lookupSD [] "X") = none
    rw [if_neg (by decide)]
    rfl
  rw [if_pos ⟨rfl, "X", by decide, hlx⟩]

/-- C6: `freeze_to n` makes exactly the groups with index below `n`
non-trainable and those from `n` on trainable; `unfreeze` equals
`freeze_to 0`; and `freeze_to n` followed by `unfreeze` leaves every group
trainable. -/
theorem c6_freeze_unfreeze (groups : List Bool) (n i : Nat)
    (h : i < groups.length) :
    (freeze_to groups n).getD i false = decide (n ≤ i) ∧
    unfreeze groups = freeze_to groups 0 ∧
    (unfreeze (freeze_to groups n)).getD i false = true := by
  refine ⟨freeze_to_getD groups n i h, rfl, ?_⟩
  have hlen : i < (freeze_to groups n).length := by
    rw [freeze_to_length]; exact h
  rw [show unfreeze (freeze_to groups n) = freeze_to (freeze_to groups n) 0 from rfl,
    freeze_to_getD _ 0 i hlen]
  simp

/-- Witness for C6: three groups, freeze the first two; group 1 is frozen and
after `unfreeze` it is trainable again. -/
theorem c6_freeze_unfreeze_witness :
    (freeze_to [true, false, true] 2).getD 1 false = decide (2 ≤ 1) ∧
    (unfreeze (freeze_to [true, false, true] 2)).getD 1 false = true :=
  ⟨(c6_freeze_unfreeze [true, false, true] 2 1 (by decide)).1,
   (c6_freeze_unfreeze [true, false, true] 2 1 (by decide)).2.2⟩

/-- C7: `fine_tune` calls `self.fit(epochs=1, fine_tune=True)` while `fit`
declares `train` and `dev` as required positional parameters; the call
raises `TypeError` before any training happens, so the claimed
one-epoch-then-save behaviour never runs.  The save-path selection of `fit`
itself does target the distinct fine-tune path when `fine_tune` is true. -/
theorem c7_fine_tune_call_raises :
    fine_tune_call = Except.error
      "TypeError: fit() missing 2 required positional arguments: train and dev" ∧
    fit_save_name true "ner_ft_path" "ner_model_path" = "ner_ft_path" ∧
    fit_save_name false "ner_ft_path" "ner_model_path" = "ner_model_path" :=
  ⟨rfl, rfl, rfl⟩

/-- C8: with no CUDA device available, the constructor's unconditional
criterion transfer `CRF(ntags).cuda()` and the unconditional `.cuda()` on
the fresh mask tensor in `create_mask` both raise instead of falling back to
the CPU path; with a device available the constructor succeeds. -/
theorem c8_no_gpu_raises :
    NERLearner_init false 5 =
      Except.error "AssertionError: torch not able to use CUDA" ∧
    create_mask_run false [2] 3 2 false =
      Except.error "AssertionError: torch not able to use CUDA" ∧
    (∀ ntags : Nat, NERLearner_init true ntags =
      Except.ok (LearnerInitState.mk true ntags)) :=
  ⟨rfl, rfl, fun _ => rfl⟩

/-- C9 counterexample: a model in training mode before `NERLearner.test`; the
claim asserts the mode flag is restored after the call, but `test` leaves
the model in eval mode. -/
theorem c9_counterexample_mode_not_restored :
    (NERLearner_test (ModuleState.mk true) []).2.training ≠ true := by
  decide

/-- C9 amended: evaluation and inference do not restore the caller's mode
flag; `test` and `predict_batch` unconditionally put the model in eval mode
and leave it there, while `train` re-establishes training mode itself at the
start of each epoch. -/
theorem c9_amended_mode_effects (m : ModuleState)
    (samples : List (Finset Chunk × Finset Chunk))
    (predictions : List (List Int)) (fine_tune : Bool)
    (updates : List (List Int → List Int)) (emb : Param) :
    (NERLearner_test m samples).2.training = false ∧
    (predict_batch m predictions).2.training = false ∧
    (NERLearner_train m fine_tune updates emb).1.training = true :=
  ⟨rfl, rfl, rfl⟩

/-- C10: every call of `train` — fine-tuning or not — disables gradients on
the embedding weight before any optimizer step, so the optimizer never
updates it: after any sequence of batch updates the embedding value is
unchanged and its `requires_grad` flag is false. -/
theorem c10_embedding_never_updated (m : ModuleState) (fine_tune : Bool)
    (updates : List (List Int → List Int)) (emb : Param) :
    (NERLearner_train m fine_tune updates emb).2.value = emb.value ∧
    (NERLearner_train m fine_tune updates emb).2.requires_grad = false := by
  have h := foldl_optimizer_step_frozen updates (Param.mk emb.value false) rfl
  constructor
  · show (updates.foldl (fun e u => optimizer_step u e)
      (Param.mk emb.value false)).value = emb.value
    rw [h]
  · show (updates.foldl (fun e u => optimizer_step u e)
      (Param.mk emb.value false)).requires_grad = false
    rw [h]
